import Mathlib

/-!
Shallow embedding of `src/brand_processing/process_brands.py` and proofs of
the frozen claims about it.

The source is a single pure Python function `process_brand_for_search` that
normalizes brand names through a pipeline:
lowercase → NFKD accent strip → dotted-abbreviation collapse →
punctuation-to-space → token filter (stopwords / preserved / model numbers) →
whitespace collapse → optional alphanumeric stripping.

The Python/Unicode library primitives (`str.lower`, `unicodedata.normalize`
with NFKD, `unicodedata.combining`, the regex classes `\w`, `\s`, `\d`,
`[a-z]`, `[0-9]`) are modelled by finite tables / predicates covering ASCII
and the accented Latin characters exercised by the repository's data; every
other character is treated as its own fixed point, matching the Unicode
behavior on the modelled range.  All definitions are structurally recursive
so that concrete inputs evaluate by `decide` / `rfl`.
-/

namespace BrandProcessing

/-- Python values relevant to the function's guard
`if not brand_name or not isinstance(brand_name, str)` (line 26): `none`
models Python `None`; `str` a Python string; `other` any non-string,
non-`None` value (numbers, lists, ...), all of which fail `isinstance`. -/
inductive PyValue where
  | none
  | str (s : String)
  | other
deriving DecidableEq

/-- Model of Python `str.lower` as a key/value table: ASCII `A`–`Z` plus the
accented uppercase Latin letters exercised by the repository's sample data;
characters outside the table are fixed points. -/
def lowerTable : List (Char × Char) :=
  [('A', 'a'), ('B', 'b'), ('C', 'c'), ('D', 'd'), ('E', 'e'), ('F', 'f'),
   ('G', 'g'), ('H', 'h'), ('I', 'i'), ('J', 'j'), ('K', 'k'), ('L', 'l'),
   ('M', 'm'), ('N', 'n'), ('O', 'o'), ('P', 'p'), ('Q', 'q'), ('R', 'r'),
   ('S', 's'), ('T', 't'), ('U', 'u'), ('V', 'v'), ('W', 'w'), ('X', 'x'),
   ('Y', 'y'), ('Z', 'z'), ('É', 'é'), ('È', 'è'), ('À', 'à'), ('Ö', 'ö')]

/-- Model of Python `str.lower`, line 30 of the source. -/
def pyLower (c : Char) : Char := (lowerTable.lookup c).getD c

/-- Model of Unicode NFKD decomposition per character (line 33): the accented
lowercase Latin letters exercised by the data decompose into base letter plus
combining mark; every other modelled character is its own decomposition. -/
def nfkdTable : List (Char × List Char) :=
  [('é', ['e', '́']), ('è', ['e', '̀']), ('à', ['a', '̀']),
   ('ö', ['o', '̈'])]

/-- Per-character NFKD decomposition (line 33). -/
def nfkd (c : Char) : List Char := (nfkdTable.lookup c).getD [c]

/-- Model of `unicodedata.combining(c) != 0` (line 34): the combining marks
produced by `nfkdTable`. -/
def pyCombining (c : Char) : Bool :=
  c == '́' || c == '̀' || c == '̈'

/-- Non-ASCII characters that Python's regex `\w` classifies as word
characters and that the model covers ('ß' has no NFKD decomposition and no
lowercase mapping, so it can reach the token stage). -/
def extraWordChars : List Char :=
  ['ß', 'é', 'è', 'à', 'ö', 'É', 'È', 'À', 'Ö']

/-- Model of Python's regex class `\w` (line 42): ASCII alphanumerics,
underscore, and the modelled non-ASCII word characters. -/
def pyIsWord (c : Char) : Bool :=
  c.isAlphanum || c == '_' || extraWordChars.contains c

/-- Model of Python's regex class `\s` and `str.split()` whitespace:
space, tab, newline, carriage return, vertical tab, form feed. -/
def pyIsSpace (c : Char) : Bool :=
  c == ' ' || c == '\t' || c == '\n' || c == '\r' || c == '\x0b' || c == '\x0c'

/-- First alternative of the abbreviation regex on line 38,
`([a-z]+\.)([0-9]+)`: a nonempty run of lowercase ASCII letters, a dot, a
nonempty run of ASCII digits.  Returns the matched span and the remainder,
or `none` when the pattern does not match at the head of the list. -/
def matchAlt1 (l : List Char) : Option (List Char × List Char) :=
  let letters := l.takeWhile Char.isLower
  let rest := l.dropWhile Char.isLower
  if letters.isEmpty then none
  else
    match rest with
    | '.' :: rest2 =>
      let digits := rest2.takeWhile Char.isDigit
      let rest3 := rest2.dropWhile Char.isDigit
      if digits.isEmpty then none else some (letters ++ '.' :: digits, rest3)
    | _ => none

/-- Second alternative of the abbreviation regex on line 38,
`([a-z]\.)([a-z]\.)`: letter, dot, letter, dot. -/
def matchAlt2 : List Char → Option (List Char × List Char)
  | a :: '.' :: b :: '.' :: r =>
    if a.isLower && b.isLower then some ([a, '.', b, '.'], r) else none
  | _ => none

/-- Scanner for `model_pattern.sub(lambda m: m.group(0).replace('.', ''), result)`
(line 39): at each position try the first alternative, then the second
(Python alternation order); on a match, emit the match with its dots removed
and continue after it; otherwise copy one character and advance.  Structured
on fuel (one unit per consumed character) so that it is structurally
recursive; `modelSub` supplies `l.length` fuel, which suffices because every
step consumes at least one character. -/
def modelSubAux : Nat → List Char → List Char
  | 0, l => l
  | _ + 1, [] => []
  | fuel + 1, c :: rest =>
    match matchAlt1 (c :: rest) with
    | some (m, r) => m.filter (fun d => d ≠ '.') ++ modelSubAux fuel r
    | Option.none =>
      match matchAlt2 (c :: rest) with
      | some (m, r) => m.filter (fun d => d ≠ '.') ++ modelSubAux fuel r
      | Option.none => c :: modelSubAux fuel rest

/-- Line 39 of the source: the dotted-abbreviation substitution. -/
def modelSub (l : List Char) : List Char := modelSubAux l.length l

/-- Accumulator-based whitespace tokenizer: model of Python `str.split()`
(line 65), which splits on runs of whitespace and discards empty pieces. -/
def tokensGo : List Char → List Char → List (List Char)
  | [], acc => if acc.isEmpty then [] else [acc.reverse]
  | c :: rest, acc =>
    if pyIsSpace c then
      if acc.isEmpty then tokensGo rest [] else acc.reverse :: tokensGo rest []
    else tokensGo rest (c :: acc)

/-- Model of Python `str.split()` (line 65). -/
def tokensOf (l : List Char) : List (List Char) := tokensGo l []

/-- State-machine model of `re.sub(r'\s+', ' ', result)` (line 79): each run
of whitespace becomes a single space.  The flag records whether the scanner
is inside a whitespace run. -/
def collapseGo : Bool → List Char → List Char
  | _, [] => []
  | inSpace, c :: rest =>
    if pyIsSpace c then
      if inSpace then collapseGo true rest else ' ' :: collapseGo true rest
    else c :: collapseGo false rest

/-- Line 79, first half: collapse whitespace runs to single spaces. -/
def collapseWs (l : List Char) : List Char := collapseGo false l

/-- Line 79, second half: Python `str.strip()`, removing leading and trailing
whitespace. -/
def pyStrip (l : List Char) : List Char :=
  ((l.dropWhile pyIsSpace).reverse.dropWhile pyIsSpace).reverse

/-- Model of `' '.join(filtered_words)` (line 76). -/
def joinSp : List (List Char) → List Char
  | [] => []
  | [w] => w
  | w :: ws => w ++ ' ' :: joinSp ws

/-- The `common_terms` set from lines 45–51 of the source. -/
def common_terms : List String :=
  ["original", "collection", "design", "limited", "edition",
   "watches", "watch", "classic", "vintage", "series", "type",
   "professional", "chronograph", "chronographe", "automatic",
   "manufacture", "gmt", "quartz", "mechanical", "reference",
   "ref", "model", "special", "for", "the", "and", "of"]

/-- The `preserved_terms` set from lines 54–60 of the source. -/
def preserved_terms : List String :=
  ["sport", "seamaster", "submariner", "navitimer", "royal", "oak",
   "datograph", "master", "control", "patrimony", "monaco", "nautilus",
   "daytona", "speedmaster", "calibre", "cal", "elegante", "laureato",
   "cosmograph", "moonwatch", "philippe", "patek", "breitling", "rolex",
   "omega", "tag", "heuer", "iwc", "piguet", "audemars", "lange", "sohne"]

/-- Whole-token match of the model-number regex `\b[a-z]*\d+[a-z0-9]*\b`
(line 63).  At the point where `re.findall` runs, the string consists only of
word characters and whitespace, so `\b` boundaries coincide with token edges
and every match is exactly a whole whitespace-delimited token matching
`[a-z]*\d+[a-z0-9]*`; `findall`'s result set is therefore the set of tokens
satisfying this predicate. -/
def isModelToken (w : List Char) : Bool :=
  let afterLetters := w.dropWhile Char.isLower
  let digits := afterLetters.takeWhile Char.isDigit
  !digits.isEmpty &&
    (afterLetters.dropWhile Char.isDigit).all (fun c => c.isLower || c.isDigit)

/-- The keep condition of lines 68–74: keep a word if it is not a common
term, or is a preserved term, or is a detected model number. -/
def keepWord (model_numbers : List (List Char)) (word : List Char) : Bool :=
  let word_lower := word.map pyLower
  !(common_terms.contains (String.mk word_lower)) ||
    preserved_terms.contains (String.mk word_lower) ||
    model_numbers.contains word_lower

/-- Line 30: `result = brand_name.lower()`. -/
def stage_lower (l : List Char) : List Char := l.map pyLower

/-- Lines 33–34: NFKD-normalize, then drop combining characters. -/
def stage_nfkd (l : List Char) : List Char :=
  (l.flatMap nfkd).filter (fun c => !pyCombining c)

/-- Line 42: `re.sub(r'[^\w\s]', ' ', result)`. -/
def stage_punct (l : List Char) : List Char :=
  l.map (fun c => if pyIsWord c || pyIsSpace c then c else ' ')

/-- The string reaching line 63/65 of the source: lines 30–42 composed. -/
def preFilterList (s : String) : List Char :=
  stage_punct (modelSub (stage_nfkd (stage_lower s.toList)))

/-- Lines 63–74: the surviving words in order (`filtered_words`). -/
def filteredTokens (s : String) : List (List Char) :=
  let model_numbers := (tokensOf (preFilterList s)).filter isModelToken
  (tokensOf (preFilterList s)).filter (keepWord model_numbers)

/-- The whole source function `process_brand_for_search` (lines 4–85). -/
def process_brand_for_search (brand_name : PyValue) (mode : String) :
    String :=
  match brand_name with
  | .str s =>
    if s = "" then ""
    else
      let r6 := joinSp (filteredTokens s)
      let r7 := pyStrip (collapseWs r6)
      if mode = "alphanumeric" then
        String.mk (r7.filter (fun c => c.isLower || c.isDigit))
      else String.mk r7
  | _ => ""

/-! ## Character-level facts about the modelled Unicode tables -/

/-- Membership extraction for association-list lookup. -/
theorem lookup_mem {α β : Type} [BEq α] [LawfulBEq α] {ps : List (α × β)} {a : α} {b : β}
    (h : ps.lookup a = some b) : (a, b) ∈ ps := by
  obtain ⟨l₁, l₂, rfl, -⟩ := List.lookup_eq_some_iff.mp h
  simp

/-- The values of the lowercase table are themselves lowercase-stable. -/
theorem lowerTable_stable : ∀ p ∈ lowerTable, lowerTable.lookup p.2 = none := by decide

/-- Characters produced by an NFKD decomposition are either combining marks
or stable under both tables. -/
theorem nfkdTable_stable :
    ∀ p ∈ nfkdTable, ∀ c ∈ p.2,
      pyCombining c = true ∨ (lowerTable.lookup c = none ∧ nfkdTable.lookup c = none) := by
  decide

/-- Lowercasing is idempotent in the model. -/
theorem pyLower_idem (d : Char) : pyLower (pyLower d) = pyLower d := by
  cases h : lowerTable.lookup d with
  | none =>
    have hd : pyLower d = d := by simp [pyLower, h]
    rw [hd, hd]
  | some v =>
    have hd : pyLower d = v := by simp [pyLower, h]
    rw [hd]
    simp [pyLower, lowerTable_stable _ (lookup_mem h)]

/-- A non-combining character of the NFKD decomposition of a lowercased
character is stable under lowercasing and NFKD. -/
theorem charStable {d c : Char} (hc : c ∈ nfkd (pyLower d)) (hcc : pyCombining c = false) :
    pyLower c = c ∧ nfkd c = [c] := by
  cases h : nfkdTable.lookup (pyLower d) with
  | none =>
    have hnf : nfkd (pyLower d) = [pyLower d] := by simp [nfkd, h]
    rw [hnf] at hc
    have hc' : c = pyLower d := by simpa using hc
    subst hc'
    exact ⟨pyLower_idem d, by simp [nfkd, h]⟩
  | some ds =>
    have hmem := lookup_mem h
    have hc' : c ∈ ds := by simpa [nfkd, h] using hc
    rcases nfkdTable_stable _ hmem c hc' with h1 | ⟨h2, h3⟩
    · rw [h1] at hcc; cases hcc
    · exact ⟨by simp [pyLower, h2], by simp [nfkd, h3]⟩

/-- Enumeration of the modelled whitespace characters. -/
theorem pyIsSpace_cases {c : Char} (h : pyIsSpace c = true) :
    c = ' ' ∨ c = '\t' ∨ c = '\n' ∨ c = '\r' ∨ c = '\x0b' ∨ c = '\x0c' := by
  simpa [pyIsSpace, or_assoc] using h

/-- Whitespace characters are fixed points of every rewriting stage and are
not letters, digits, word characters, or dots. -/
theorem space_char_facts {c : Char} (h : pyIsSpace c = true) :
    pyLower c = c ∧ nfkd c = [c] ∧ pyCombining c = false ∧ pyIsWord c = false ∧
      Char.isLower c = false ∧ Char.isDigit c = false ∧ c ≠ '.' := by
  rcases pyIsSpace_cases h with rfl | rfl | rfl | rfl | rfl | rfl <;> decide

/-- Word characters are not whitespace. -/
theorem word_not_space {c : Char} (h : pyIsWord c = true) : pyIsSpace c = false := by
  cases hs : pyIsSpace c
  · rfl
  · rw [(space_char_facts hs).2.2.2.1] at h
    cases h

/-- Word characters are not the dot. -/
theorem word_ne_dot {c : Char} (h : pyIsWord c = true) : c ≠ '.' := by
  rintro rfl
  revert h
  decide

/-! ## takeWhile / dropWhile across a blocking character -/

/-- A `takeWhile` cannot cross a character that falsifies its predicate. -/
theorem takeWhile_append_block {p : Char → Bool} {c : Char} (hc : p c = false)
    (l1 l2 : List Char) : (l1 ++ c :: l2).takeWhile p = l1.takeWhile p := by
  induction l1 with
  | nil => simp [List.takeWhile_cons, hc]
  | cons d t ih =>
    simp only [List.cons_append, List.takeWhile_cons]
    cases p d <;> simp [ih]

/-- A `dropWhile` cannot cross a character that falsifies its predicate. -/
theorem dropWhile_append_block {p : Char → Bool} {c : Char} (hc : p c = false)
    (l1 l2 : List Char) : (l1 ++ c :: l2).dropWhile p = l1.dropWhile p ++ c :: l2 := by
  induction l1 with
  | nil => simp [List.dropWhile_cons, hc]
  | cons d t ih =>
    simp only [List.cons_append, List.dropWhile_cons]
    cases p d <;> simp [ih]

/-! ## Basic properties of the abbreviation matchers -/

/-- A successful first-alternative match splits the list, spans at least
three characters, and contains a dot. -/
theorem matchAlt1_spec {l m r : List Char} (h : matchAlt1 l = some (m, r)) :
    l = m ++ r ∧ 3 ≤ m.length ∧ '.' ∈ m := by
  simp only [matchAlt1] at h
  split at h
  · cases h
  · rename_i hletters
    split at h
    · rename_i rest2 heq
      split at h
      · cases h
      · rename_i hdigits
        simp only [Option.some.injEq, Prod.mk.injEq] at h
        obtain ⟨hm, hr⟩ := h
        subst hm
        subst hr
        have hl : l.takeWhile Char.isLower ++ l.dropWhile Char.isLower = l :=
          List.takeWhile_append_dropWhile _ _
        have hr2 : rest2.takeWhile Char.isDigit ++ rest2.dropWhile Char.isDigit = rest2 :=
          List.takeWhile_append_dropWhile _ _
        have h1 : l.takeWhile Char.isLower ≠ [] := by
          simpa [List.isEmpty_iff] using hletters
        have h2 : rest2.takeWhile Char.isDigit ≠ [] := by
          simpa [List.isEmpty_iff] using hdigits
        have hp1 := List.length_pos.mpr h1
        have hp2 := List.length_pos.mpr h2
        refine ⟨?_, ?_, ?_⟩
        · conv_lhs => rw [← hl, heq]
          simp only [List.cons_append, List.append_assoc]
          rw [hr2]
        · simp only [List.length_append, List.length_cons]
          omega
        · simp
    · cases h

/-- A successful second-alternative match splits the list, spans exactly four
characters, and contains a dot. -/
theorem matchAlt2_spec {l m r : List Char} (h : matchAlt2 l = some (m, r)) :
    l = m ++ r ∧ m.length = 4 ∧ '.' ∈ m := by
  unfold matchAlt2 at h
  split at h
  · split at h
    · simp only [Option.some.injEq, Prod.mk.injEq] at h
      obtain ⟨h1, h2⟩ := h
      subst h1
      subst h2
      simp
    · cases h
  · cases h

/-- The first alternative fails when the head is not a lowercase letter. -/
theorem matchAlt1_none_of_head {c : Char} {l : List Char} (hc : Char.isLower c = false) :
    matchAlt1 (c :: l) = none := by
  simp [matchAlt1, List.takeWhile_cons, hc]

/-- The second alternative fails when the head is not a lowercase letter. -/
theorem matchAlt2_none_of_head {c : Char} {l : List Char} (hc : Char.isLower c = false) :
    matchAlt2 (c :: l) = none := by
  unfold matchAlt2
  split
  · rename_i a b r heq
    simp only [List.cons.injEq] at heq
    obtain ⟨rfl, -⟩ := heq
    simp [hc]
  · rfl

/-- The second alternative fails when the second or fourth character is not a
dot. -/
theorem matchAlt2_none_of_shape {a b d e : Char} {t : List Char} (h : b ≠ '.' ∨ e ≠ '.') :
    matchAlt2 (a :: b :: d :: e :: t) = none := by
  unfold matchAlt2
  split
  · rename_i a' b' r' heq
    simp only [List.cons.injEq] at heq
    obtain ⟨-, hb, -, he, -⟩ := heq
    rcases h with h | h
    · exact absurd hb h
    · exact absurd he h
  · rfl

/-- A first-alternative match on a list extended past a blocking character
(one that is neither a lowercase letter, a digit, nor a dot) is exactly a
match on the unextended list, with the extension appended to the remainder. -/
theorem matchAlt1_append_block {c : Char} (hlow : Char.isLower c = false)
    (hdig : Char.isDigit c = false) (hdot : c ≠ '.') (l1 l2 : List Char) :
    matchAlt1 (l1 ++ c :: l2) = (matchAlt1 l1).map (fun p => (p.1, p.2 ++ c :: l2)) := by
  simp only [matchAlt1]
  rw [takeWhile_append_block hlow, dropWhile_append_block hlow]
  cases hE : (l1.takeWhile Char.isLower).isEmpty
  · simp only [hE, Bool.false_eq_true, if_false]
    cases hd : l1.dropWhile Char.isLower with
    | nil =>
      simp only [List.nil_append]
      split
      · rename_i rest2 heq
        simp only [List.cons.injEq] at heq
        exact absurd heq.1 hdot
      · rfl
    | cons d rest =>
      simp only [List.cons_append]
      by_cases hdotd : d = '.'
      · subst hdotd
        simp only
        rw [takeWhile_append_block hdig, dropWhile_append_block hdig]
        cases hD : (rest.takeWhile Char.isDigit).isEmpty <;> simp [hD]
      · split
        · rename_i rest2 heq
          simp only [List.cons.injEq] at heq
          exact absurd heq.1 hdotd
        · split
          · rename_i rest2 heq
            simp only [List.cons.injEq] at heq
            exact absurd heq.1 hdotd
          · rfl
  · simp [hE]

/-- The second-alternative analogue of `matchAlt1_append_block`. -/
theorem matchAlt2_append_block {c : Char} (hlow : Char.isLower c = false) (hdot : c ≠ '.')
    (l1 l2 : List Char) :
    matchAlt2 (l1 ++ c :: l2) = (matchAlt2 l1).map (fun p => (p.1, p.2 ++ c :: l2)) := by
  rcases l1 with _ | ⟨a, _ | ⟨b, _ | ⟨d, _ | ⟨e, t⟩⟩⟩⟩
  · simp only [List.nil_append]
    rw [matchAlt2_none_of_head hlow]
    rfl
  · have hr : matchAlt2 [a] = none := by
      unfold matchAlt2
      split
      · rename_i a' b' r' heq
        simp at heq
      · rfl
    rw [hr]
    have : matchAlt2 ([a] ++ c :: l2) = none := by
      unfold matchAlt2
      split
      · rename_i a' b' r' heq
        simp only [List.cons_append, List.nil_append, List.cons.injEq] at heq
        exact absurd heq.2.1 hdot
      · rfl
    rw [this]
    rfl
  · have hr : matchAlt2 [a, b] = none := by
      unfold matchAlt2
      split
      · rename_i a' b' r' heq
        simp at heq
      · rfl
    rw [hr]
    have : matchAlt2 ([a, b] ++ c :: l2) = none := by
      unfold matchAlt2
      split
      · rename_i a' b' r' heq
        simp only [List.cons_append, List.nil_append, List.cons.injEq] at heq
        obtain ⟨-, -, hb', -⟩ := heq
        subst hb'
        simp [hlow]
      · rfl
    rw [this]
    rfl
  · have hr : matchAlt2 [a, b, d] = none := by
      unfold matchAlt2
      split
      · rename_i a' b' r' heq
        simp at heq
      · rfl
    rw [hr]
    have : matchAlt2 ([a, b, d] ++ c :: l2) = none := by
      unfold matchAlt2
      split
      · rename_i a' b' r' heq
        simp only [List.cons_append, List.nil_append, List.cons.injEq] at heq
        exact absurd heq.2.2.2.1 hdot
      · rfl
    rw [this]
    rfl
  · by_cases hb : b = '.'
    · by_cases he : e = '.'
      · subst hb
        subst he
        cases hg : a.isLower && d.isLower <;> simp [matchAlt2, hg]
      · simp only [List.cons_append]
        rw [matchAlt2_none_of_shape (Or.inr he), matchAlt2_none_of_shape (Or.inr he)]
        rfl
    · simp only [List.cons_append]
      rw [matchAlt2_none_of_shape (Or.inl hb), matchAlt2_none_of_shape (Or.inl hb)]
      rfl

/-! ## Unfolding equations for the abbreviation scanner -/

/-- The first alternative never matches the empty list. -/
theorem matchAlt1_nil : matchAlt1 [] = none := rfl

/-- The second alternative never matches the empty list. -/
theorem matchAlt2_nil : matchAlt2 [] = none := rfl

/-- A first-alternative match consumes at least three characters. -/
theorem matchAlt1_lt {l m r : List Char} (h : matchAlt1 l = some (m, r)) :
    r.length + 3 ≤ l.length := by
  obtain ⟨hl, hm, -⟩ := matchAlt1_spec h
  subst hl
  simp only [List.length_append]
  omega

/-- A second-alternative match consumes exactly four characters. -/
theorem matchAlt2_lt {l m r : List Char} (h : matchAlt2 l = some (m, r)) :
    r.length + 4 ≤ l.length := by
  obtain ⟨hl, hm, -⟩ := matchAlt2_spec h
  subst hl
  simp only [List.length_append]
  omega

/-- The scanner result does not depend on the fuel, as long as the fuel
covers the list length. -/
theorem modelSubAux_congr : ∀ (f g : Nat) (l : List Char), l.length ≤ f → l.length ≤ g →
    modelSubAux f l = modelSubAux g l := by
  intro f
  induction f with
  | zero =>
    intro g l hf hg
    have hl : l = [] := List.eq_nil_of_length_eq_zero (Nat.le_zero.mp hf)
    subst hl
    cases g <;> rfl
  | succ f ih =>
    intro g l hf hg
    cases l with
    | nil => cases g <;> rfl
    | cons c rest =>
      cases g with
      | zero => simp at hg
      | succ g' =>
        simp only [modelSubAux]
        cases h1 : matchAlt1 (c :: rest) with
        | some mr =>
          obtain ⟨m, r⟩ := mr
          have hb := matchAlt1_lt h1
          simp only [List.length_cons] at hf hg hb
          dsimp only
          rw [ih g' r (by omega) (by omega)]
        | none =>
          simp only [h1]
          cases h2 : matchAlt2 (c :: rest) with
          | some mr =>
            obtain ⟨m, r⟩ := mr
            have hb := matchAlt2_lt h2
            simp only [List.length_cons] at hf hg hb
            dsimp only
            rw [ih g' r (by omega) (by omega)]
          | none =>
            simp only [h2, List.length_cons] at hf hg ⊢
            rw [ih g' rest (by omega) (by omega)]

/-- Base equation of the scanner. -/
theorem modelSub_nil : modelSub [] = [] := rfl

/-- Scanner equation when the first alternative matches. -/
theorem modelSub_eq1 {l m r : List Char} (h : matchAlt1 l = some (m, r)) :
    modelSub l = m.filter (fun d => d ≠ '.') ++ modelSub r := by
  cases l with
  | nil => rw [matchAlt1_nil] at h; cases h
  | cons c rest =>
    have hb := matchAlt1_lt h
    simp only [List.length_cons] at hb
    show modelSubAux (c :: rest).length (c :: rest) = _
    simp only [List.length_cons, modelSubAux, h]
    congr 1
    exact modelSubAux_congr rest.length r.length r (by omega) (le_refl _)

/-- Scanner equation when only the second alternative matches. -/
theorem modelSub_eq2 {l m r : List Char} (h1 : matchAlt1 l = none)
    (h2 : matchAlt2 l = some (m, r)) :
    modelSub l = m.filter (fun d => d ≠ '.') ++ modelSub r := by
  cases l with
  | nil => rw [matchAlt2_nil] at h2; cases h2
  | cons c rest =>
    have hb := matchAlt2_lt h2
    simp only [List.length_cons] at hb
    show modelSubAux (c :: rest).length (c :: rest) = _
    simp only [List.length_cons, modelSubAux, h1, h2]
    congr 1
    exact modelSubAux_congr rest.length r.length r (by omega) (le_refl _)

/-- Scanner equation when neither alternative matches: copy one character. -/
theorem modelSub_skip {c : Char} {rest : List Char} (h1 : matchAlt1 (c :: rest) = none)
    (h2 : matchAlt2 (c :: rest) = none) :
    modelSub (c :: rest) = c :: modelSub rest := by
  show modelSubAux (c :: rest).length (c :: rest) = _
  simp only [List.length_cons, modelSubAux, h1, h2]
  rfl

/-- Every character of the scanner output occurs in its input. -/
theorem modelSub_mem_aux : ∀ (n : Nat) (l : List Char), l.length ≤ n →
    ∀ c ∈ modelSub l, c ∈ l := by
  intro n
  induction n with
  | zero =>
    intro l hl
    have : l = [] := List.eq_nil_of_length_eq_zero (Nat.le_zero.mp hl)
    subst this
    simp [modelSub_nil]
  | succ n ih =>
    intro l hl c hc
    cases h1 : matchAlt1 l with
    | some mr =>
      obtain ⟨m, r⟩ := mr
      rw [modelSub_eq1 h1] at hc
      obtain ⟨hlmr, -, -⟩ := matchAlt1_spec h1
      have hlen := matchAlt1_lt h1
      rcases List.mem_append.mp hc with hm | hr
      · rw [hlmr]
        exact List.mem_append_left _ (List.mem_filter.mp hm).1
      · rw [hlmr]
        exact List.mem_append_right _ (ih r (by omega) c hr)
    | none =>
      cases h2 : matchAlt2 l with
      | some mr =>
        obtain ⟨m, r⟩ := mr
        rw [modelSub_eq2 h1 h2] at hc
        obtain ⟨hlmr, -, -⟩ := matchAlt2_spec h2
        have hlen := matchAlt2_lt h2
        rcases List.mem_append.mp hc with hm | hr
        · rw [hlmr]
          exact List.mem_append_left _ (List.mem_filter.mp hm).1
        · rw [hlmr]
          exact List.mem_append_right _ (ih r (by omega) c hr)
      | none =>
        cases l with
        | nil => simp [modelSub_nil] at hc
        | cons d rest =>
          rw [modelSub_skip h1 h2] at hc
          simp only [List.length_cons] at hl
          rcases List.mem_cons.mp hc with rfl | hc'
          · exact List.mem_cons_self _ _
          · exact List.mem_cons_of_mem _ (ih rest (by omega) c hc')

/-- Every character of the scanner output occurs in its input. -/
theorem modelSub_mem {l : List Char} {c : Char} (hc : c ∈ modelSub l) : c ∈ l :=
  modelSub_mem_aux l.length l (le_refl _) c hc

/-- On dot-free input the scanner is the identity. -/
theorem modelSub_id_aux : ∀ (n : Nat) (l : List Char), l.length ≤ n →
    (∀ c ∈ l, c ≠ '.') → modelSub l = l := by
  intro n
  induction n with
  | zero =>
    intro l hl _
    have : l = [] := List.eq_nil_of_length_eq_zero (Nat.le_zero.mp hl)
    subst this
    exact modelSub_nil
  | succ n ih =>
    intro l hl hdot
    cases h1 : matchAlt1 l with
    | some mr =>
      obtain ⟨m, r⟩ := mr
      obtain ⟨hlmr, -, hdm⟩ := matchAlt1_spec h1
      exact absurd rfl (hdot '.' (hlmr ▸ List.mem_append_left _ hdm))
    | none =>
      cases h2 : matchAlt2 l with
      | some mr =>
        obtain ⟨m, r⟩ := mr
        obtain ⟨hlmr, -, hdm⟩ := matchAlt2_spec h2
        exact absurd rfl (hdot '.' (hlmr ▸ List.mem_append_left _ hdm))
      | none =>
        cases l with
        | nil => exact modelSub_nil
        | cons d rest =>
          simp only [List.length_cons] at hl
          rw [modelSub_skip h1 h2,
            ih rest (by omega) (fun c hc => hdot c (List.mem_cons_of_mem _ hc))]

/-- On dot-free input the scanner is the identity. -/
theorem modelSub_id_of_no_dot {l : List Char} (hdot : ∀ c ∈ l, c ≠ '.') :
    modelSub l = l :=
  modelSub_id_aux l.length l (le_refl _) hdot

/-- The scanner distributes over a whitespace character: no match can span
it, so the two sides are rewritten independently. -/
theorem modelSub_split_aux : ∀ (n : Nat) (l1 : List Char), l1.length ≤ n →
    ∀ {c : Char}, pyIsSpace c = true → ∀ (l2 : List Char),
      modelSub (l1 ++ c :: l2) = modelSub l1 ++ c :: modelSub l2 := by
  intro n
  induction n with
  | zero =>
    intro l1 hl1 c hc l2
    have : l1 = [] := List.eq_nil_of_length_eq_zero (Nat.le_zero.mp hl1)
    subst this
    obtain ⟨-, -, -, -, hlow, -, -⟩ := space_char_facts hc
    simp only [List.nil_append, modelSub_nil]
    rw [modelSub_skip (matchAlt1_none_of_head hlow) (matchAlt2_none_of_head hlow)]
  | succ n ih =>
    intro l1 hl1 c hc l2
    obtain ⟨-, -, -, -, hlow, hdig, hdot⟩ := space_char_facts hc
    cases h1 : matchAlt1 l1 with
    | some mr =>
      obtain ⟨m, r⟩ := mr
      have hext : matchAlt1 (l1 ++ c :: l2) = some (m, r ++ c :: l2) := by
        rw [matchAlt1_append_block hlow hdig hdot, h1]
        rfl
      have hlen := matchAlt1_lt h1
      rw [modelSub_eq1 hext, modelSub_eq1 h1,
        ih r (by omega) hc l2, List.append_assoc]
    | none =>
      have hext1 : matchAlt1 (l1 ++ c :: l2) = none := by
        rw [matchAlt1_append_block hlow hdig hdot, h1]
        rfl
      cases h2 : matchAlt2 l1 with
      | some mr =>
        obtain ⟨m, r⟩ := mr
        have hext2 : matchAlt2 (l1 ++ c :: l2) = some (m, r ++ c :: l2) := by
          rw [matchAlt2_append_block hlow hdot, h2]
          rfl
        have hlen := matchAlt2_lt h2
        rw [modelSub_eq2 hext1 hext2, modelSub_eq2 h1 h2,
          ih r (by omega) hc l2, List.append_assoc]
      | none =>
        have hext2 : matchAlt2 (l1 ++ c :: l2) = none := by
          rw [matchAlt2_append_block hlow hdot, h2]
          rfl
        cases l1 with
        | nil =>
          simp only [List.nil_append, modelSub_nil]
          rw [modelSub_skip (matchAlt1_none_of_head hlow) (matchAlt2_none_of_head hlow)]
        | cons d rest =>
          have e1 : matchAlt1 (d :: (rest ++ c :: l2)) = none := by simpa using hext1
          have e2 : matchAlt2 (d :: (rest ++ c :: l2)) = none := by simpa using hext2
          simp only [List.length_cons] at hl1
          show modelSub (d :: (rest ++ c :: l2)) = _
          rw [modelSub_skip e1 e2, modelSub_skip h1 h2,
            ih rest (by omega) hc l2]
          rfl

/-- The scanner distributes over a whitespace character. -/
theorem modelSub_split {c : Char} (hc : pyIsSpace c = true) (l1 l2 : List Char) :
    modelSub (l1 ++ c :: l2) = modelSub l1 ++ c :: modelSub l2 :=
  modelSub_split_aux l1.length l1 (le_refl _) hc l2

/-! ## Properties of the whitespace tokenizer -/

/-- Tokenizing the empty list. -/
theorem tokensOf_nil : tokensOf [] = [] := rfl

/-- A leading whitespace character is skipped. -/
theorem tokensOf_cons_space {c : Char} {l : List Char} (hc : pyIsSpace c = true) :
    tokensOf (c :: l) = tokensOf l := by
  simp [tokensOf, tokensGo, hc]

/-- Unfolding of the tokenizer with a nonempty accumulator. -/
theorem tokensGo_acc (l : List Char) : ∀ acc : List Char, acc ≠ [] →
    tokensGo l acc =
      (acc.reverse ++ l.takeWhile (fun d => !pyIsSpace d)) ::
        tokensOf (l.dropWhile (fun d => !pyIsSpace d)) := by
  induction l with
  | nil =>
    intro acc hacc
    simp [tokensGo, tokensOf, List.isEmpty_iff, hacc]
  | cons c t ih =>
    intro acc hacc
    cases hc : pyIsSpace c with
    | false =>
      have hstep : tokensGo (c :: t) acc = tokensGo t (c :: acc) := by
        simp [tokensGo, hc]
      rw [hstep, ih (c :: acc) (by simp)]
      simp [List.takeWhile_cons, List.dropWhile_cons, hc]
    | true =>
      have hstep : tokensGo (c :: t) acc = acc.reverse :: tokensGo t [] := by
        simp [tokensGo, hc, List.isEmpty_iff, hacc]
      rw [hstep]
      simp only [List.takeWhile_cons, List.dropWhile_cons, hc, Bool.not_true,
        Bool.false_eq_true, if_false, List.append_nil]
      exact List.cons.injEq _ _ _ _ ▸ ⟨rfl, (tokensOf_cons_space hc).symm⟩

/-- Unfolding of the tokenizer at a word character: the whole first token is
taken at once. -/
theorem tokensOf_cons_word {c : Char} {l : List Char} (hc : pyIsSpace c = false) :
    tokensOf (c :: l) =
      (c :: l.takeWhile (fun d => !pyIsSpace d)) ::
        tokensOf (l.dropWhile (fun d => !pyIsSpace d)) := by
  have h0 : tokensOf (c :: l) = tokensGo l [c] := by
    simp [tokensOf, tokensGo, hc]
  rw [h0, tokensGo_acc l [c] (by simp)]
  simp

/-- Tokens are nonempty, consist of characters of the input, and contain no
whitespace. -/
theorem tokensGo_spec : ∀ (l acc : List Char), (∀ c ∈ acc, pyIsSpace c = false) →
    ∀ w ∈ tokensGo l acc, w ≠ [] ∧ ∀ c ∈ w, (c ∈ l ∨ c ∈ acc) ∧ pyIsSpace c = false := by
  intro l
  induction l with
  | nil =>
    intro acc hacc w hw
    by_cases h : acc = []
    · subst h
      simp [tokensGo] at hw
    · simp only [tokensGo, List.isEmpty_iff, if_neg h] at hw
      have hw' : w = acc.reverse := by simpa using hw
      subst hw'
      refine ⟨by simpa using h, fun c hc => ?_⟩
      have hmem : c ∈ acc := by simpa using hc
      exact ⟨Or.inr hmem, hacc c hmem⟩
  | cons d t ih =>
    intro acc hacc w hw
    cases hd : pyIsSpace d with
    | true =>
      by_cases h : acc = []
      · subst h
        have hw' : w ∈ tokensGo t [] := by
          simpa [tokensGo, hd] using hw
        rcases ih [] (by simp) w hw' with ⟨hne, hall⟩
        refine ⟨hne, fun c hc => ?_⟩
        rcases hall c hc with ⟨hmem | hmem, hsp⟩
        · exact ⟨Or.inl (List.mem_cons_of_mem _ hmem), hsp⟩
        · simp at hmem
      · have hw' : w = acc.reverse ∨ w ∈ tokensGo t [] := by
          simpa [tokensGo, hd, List.isEmpty_iff, h] using hw
        rcases hw' with rfl | hw'
        · refine ⟨by simpa using h, fun c hc => ?_⟩
          have hmem : c ∈ acc := by simpa using hc
          exact ⟨Or.inr hmem, hacc c hmem⟩
        · rcases ih [] (by simp) w hw' with ⟨hne, hall⟩
          refine ⟨hne, fun c hc => ?_⟩
          rcases hall c hc with ⟨hmem | hmem, hsp⟩
          · exact ⟨Or.inl (List.mem_cons_of_mem _ hmem), hsp⟩
          · simp at hmem
    | false =>
      have hstep : tokensGo (d :: t) acc = tokensGo t (d :: acc) := by
        simp [tokensGo, hd]
      rw [hstep] at hw
      have hacc' : ∀ c ∈ d :: acc, pyIsSpace c = false := by
        intro c hc
        rcases List.mem_cons.mp hc with rfl | hc
        · exact hd
        · exact hacc c hc
      rcases ih (d :: acc) hacc' w hw with ⟨hne, hall⟩
      refine ⟨hne, fun c hc => ?_⟩
      rcases hall c hc with ⟨hmem, hsp⟩
      refine ⟨?_, hsp⟩
      rcases hmem with hmem | hmem
      · exact Or.inl (List.mem_cons_of_mem _ hmem)
      · rcases List.mem_cons.mp hmem with rfl | hmem
        · exact Or.inl (List.mem_cons_self _ _)
        · exact Or.inr hmem

/-- Tokens are nonempty, consist of characters of the input, and contain no
whitespace. -/
theorem tokensOf_spec {l w : List Char} (hw : w ∈ tokensOf l) :
    w ≠ [] ∧ ∀ c ∈ w, c ∈ l ∧ pyIsSpace c = false := by
  rcases tokensGo_spec l [] (by simp) w hw with ⟨hne, hall⟩
  refine ⟨hne, fun c hc => ?_⟩
  rcases hall c hc with ⟨hmem | hmem, hsp⟩
  · exact ⟨hmem, hsp⟩
  · simp at hmem

/-- Tokenization splits at a whitespace character. -/
theorem tokensOf_append_space_aux : ∀ (n : Nat) (l1 : List Char), l1.length ≤ n →
    ∀ {c : Char}, pyIsSpace c = true → ∀ (l2 : List Char),
      tokensOf (l1 ++ c :: l2) = tokensOf l1 ++ tokensOf l2 := by
  intro n
  induction n with
  | zero =>
    intro l1 hl1 c hc l2
    have : l1 = [] := List.eq_nil_of_length_eq_zero (Nat.le_zero.mp hl1)
    subst this
    simp [tokensOf_cons_space hc, tokensOf_nil]
  | succ n ih =>
    intro l1 hl1 c hc l2
    cases l1 with
    | nil => simp [tokensOf_cons_space hc, tokensOf_nil]
    | cons d t =>
      simp only [List.length_cons] at hl1
      cases hd : pyIsSpace d with
      | true =>
        show tokensOf (d :: (t ++ c :: l2)) = _
        rw [tokensOf_cons_space hd, tokensOf_cons_space hd, ih t (by omega) hc l2]
      | false =>
        show tokensOf (d :: (t ++ c :: l2)) = _
        rw [tokensOf_cons_word hd, tokensOf_cons_word hd]
        have hcp : (fun d => !pyIsSpace d) c = false := by simp [hc]
        rw [takeWhile_append_block hcp, dropWhile_append_block hcp]
        have hdw : (t.dropWhile (fun d => !pyIsSpace d)).length ≤ n := by
          have := (@List.dropWhile_sublist Char t (fun d => !pyIsSpace d)).length_le
          omega
        rw [ih _ hdw hc l2]
        simp

/-- Tokenization splits at a whitespace character. -/
theorem tokensOf_append_space {c : Char} (hc : pyIsSpace c = true) (l1 l2 : List Char) :
    tokensOf (l1 ++ c :: l2) = tokensOf l1 ++ tokensOf l2 :=
  tokensOf_append_space_aux l1.length l1 (le_refl _) hc l2

/-- A nonempty whitespace-free list is its own single token. -/
theorem tokensOf_single {w : List Char} (hne : w ≠ [])
    (hns : ∀ c ∈ w, pyIsSpace c = false) : tokensOf w = [w] := by
  cases w with
  | nil => exact absurd rfl hne
  | cons c t =>
    rw [tokensOf_cons_word (hns c (List.mem_cons_self _ _))]
    have hall : ∀ a ∈ t, (fun d => !pyIsSpace d) a = true := by
      intro a ha
      simp [hns a (List.mem_cons_of_mem _ ha)]
    have h1 : t.takeWhile (fun d => !pyIsSpace d) = t := by
      have := @List.takeWhile_append_of_pos Char (fun d => !pyIsSpace d) t [] hall
      simpa using this
    have h2 : t.dropWhile (fun d => !pyIsSpace d) = [] := by
      have := @List.dropWhile_append_of_pos Char (fun d => !pyIsSpace d) t [] hall
      simpa using this
    rw [h1, h2, tokensOf_nil]

/-! ## Properties of the space join -/

/-- Unfolding of `joinSp` on a list with at least two tokens. -/
theorem joinSp_cons (w x : List Char) (ws : List (List Char)) :
    joinSp (w :: x :: ws) = w ++ ' ' :: joinSp (x :: ws) := rfl

/-- Tokenizing a space-join of nonempty whitespace-free tokens recovers the
tokens. -/
theorem tokensOf_joinSp : ∀ ts : List (List Char),
    (∀ w ∈ ts, w ≠ [] ∧ ∀ c ∈ w, pyIsSpace c = false) → tokensOf (joinSp ts) = ts := by
  intro ts
  induction ts with
  | nil => intro _; rfl
  | cons w ws ih =>
    intro h
    cases ws with
    | nil =>
      have hw := h w (by simp)
      exact tokensOf_single hw.1 hw.2
    | cons x ws' =>
      rw [joinSp_cons, tokensOf_append_space (by decide) w (joinSp (x :: ws'))]
      have hw := h w (by simp)
      rw [tokensOf_single hw.1 hw.2, ih (fun w' hw' => h w' (List.mem_cons_of_mem _ hw'))]
      rfl

/-- Characters of a space-join are spaces or token characters. -/
theorem mem_joinSp : ∀ (ts : List (List Char)) (c : Char), c ∈ joinSp ts →
    c = ' ' ∨ ∃ w ∈ ts, c ∈ w := by
  intro ts
  induction ts with
  | nil =>
    intro c hc
    simp [joinSp] at hc
  | cons w ws ih =>
    intro c hc
    cases ws with
    | nil =>
      right
      exact ⟨w, by simp, by simpa [joinSp] using hc⟩
    | cons x ws' =>
      rw [joinSp_cons] at hc
      rcases List.mem_append.mp hc with h | h
      · right
        exact ⟨w, by simp, h⟩
      · rcases List.mem_cons.mp h with rfl | h
        · exact Or.inl rfl
        · rcases ih c h with h | ⟨w', hw', hcw'⟩
          · exact Or.inl h
          · exact Or.inr ⟨w', List.mem_cons_of_mem _ hw', hcw'⟩

/-- A space-join headed by a nonempty token is nonempty. -/
theorem joinSp_ne_nil {w : List Char} {ws : List (List Char)} (hw : w ≠ []) :
    joinSp (w :: ws) ≠ [] := by
  cases ws with
  | nil => simpa [joinSp] using hw
  | cons x ws' =>
    rw [joinSp_cons]
    simp

/-! ## Properties of whitespace collapse and strip -/

/-- The collapse scanner copies a whitespace-free prefix unchanged. -/
theorem collapseGo_word : ∀ (w : List Char), (∀ c ∈ w, pyIsSpace c = false) →
    ∀ r, collapseGo false (w ++ r) = w ++ collapseGo false r := by
  intro w
  induction w with
  | nil => intro _ r; rfl
  | cons c t ih =>
    intro h r
    have hc : pyIsSpace c = false := h c (List.mem_cons_self _ _)
    show collapseGo false (c :: (t ++ r)) = _
    simp [collapseGo, hc, ih (fun d hd => h d (List.mem_cons_of_mem _ hd)) r]

/-- The collapse scanner's flag is irrelevant when the next character is not
whitespace. -/
theorem collapseGo_true_head : ∀ (r : List Char),
    (r = [] ∨ ∃ d t, r = d :: t ∧ pyIsSpace d = false) →
    collapseGo true r = collapseGo false r := by
  intro r h
  rcases h with rfl | ⟨d, t, rfl, hd⟩
  · rfl
  · simp [collapseGo, hd]

/-- The head of a space-join is the head of its first (nonempty) token. -/
theorem joinSp_head {x : List Char} (hne : x ≠ []) : ∀ ws : List (List Char),
    ∃ d t, joinSp (x :: ws) = d :: t ∧ d ∈ x := by
  intro ws
  cases x with
  | nil => exact absurd rfl hne
  | cons d t' =>
    cases ws with
    | nil => exact ⟨d, t', rfl, List.mem_cons_self _ _⟩
    | cons y ws' => exact ⟨d, t' ++ ' ' :: joinSp (y :: ws'), rfl, List.mem_cons_self _ _⟩

/-- Whitespace collapse leaves a well-formed space-join unchanged. -/
theorem collapseWs_joinSp : ∀ ts : List (List Char),
    (∀ w ∈ ts, w ≠ [] ∧ ∀ c ∈ w, pyIsSpace c = false) →
    collapseWs (joinSp ts) = joinSp ts := by
  intro ts
  induction ts with
  | nil => intro _; rfl
  | cons w ws ih =>
    intro h
    have hw := h w (by simp)
    cases ws with
    | nil =>
      show collapseGo false (w) = w
      have := collapseGo_word w hw.2 []
      simpa [collapseGo] using this
    | cons x ws' =>
      rw [joinSp_cons]
      show collapseGo false (w ++ ' ' :: joinSp (x :: ws')) = _
      rw [collapseGo_word w hw.2]
      congr 1
      obtain ⟨d, t0, hdt, hdx⟩ := joinSp_head (h x (by simp)).1 ws'
      have hd : pyIsSpace d = false := (h x (by simp)).2 d hdx
      have hstep : collapseGo false (' ' :: joinSp (x :: ws')) =
          ' ' :: collapseGo true (joinSp (x :: ws')) := rfl
      rw [hstep, collapseGo_true_head _ (Or.inr ⟨d, t0, hdt, hd⟩)]
      have hrec := ih (fun w' hw' => h w' (List.mem_cons_of_mem _ hw'))
      exact congrArg (List.cons ' ') hrec

/-- The last character of a well-formed space-join is not whitespace. -/
theorem joinSp_last : ∀ ts : List (List Char),
    (∀ w ∈ ts, w ≠ [] ∧ ∀ c ∈ w, pyIsSpace c = false) →
    joinSp ts = [] ∨ ∃ l' c, joinSp ts = l' ++ [c] ∧ pyIsSpace c = false := by
  intro ts
  induction ts with
  | nil => intro _; exact Or.inl rfl
  | cons w ws ih =>
    intro h
    right
    cases ws with
    | nil =>
      obtain ⟨hne, hns⟩ := h w (by simp)
      rcases List.eq_nil_or_concat w with rfl | ⟨l', c, rfl⟩
      · exact absurd rfl hne
      · refine ⟨l', c, by simp [joinSp, List.concat_eq_append], ?_⟩
        exact hns c (by simp [List.concat_eq_append])
    | cons x ws' =>
      rcases ih (fun w' hw' => h w' (List.mem_cons_of_mem _ hw')) with hnil | ⟨l', c, hl, hc⟩
      · exact absurd hnil (joinSp_ne_nil (h x (by simp)).1)
      · exact ⟨w ++ ' ' :: l', c, by simp [joinSp_cons, hl], hc⟩

/-- Stripping leaves a well-formed space-join unchanged. -/
theorem pyStrip_joinSp : ∀ ts : List (List Char),
    (∀ w ∈ ts, w ≠ [] ∧ ∀ c ∈ w, pyIsSpace c = false) →
    pyStrip (joinSp ts) = joinSp ts := by
  intro ts h
  cases ts with
  | nil => rfl
  | cons w ws =>
    obtain ⟨hne, hns⟩ := h w (by simp)
    obtain ⟨d, t0, hdt, hdx⟩ := joinSp_head hne ws
    have hd : pyIsSpace d = false := hns d hdx
    unfold pyStrip
    rw [hdt, List.dropWhile_cons_of_neg (by simp [hd]), ← hdt]
    rcases joinSp_last (w :: ws) h with hnil | ⟨l', c, hl, hc⟩
    · exact absurd hnil (joinSp_ne_nil hne)
    · rw [hl]
      have hrev : (l' ++ [c]).reverse = c :: l'.reverse := by simp
      rw [hrev, List.dropWhile_cons_of_neg (by simp [hc])]
      simp

/-- Lines 76–79 are the identity on the join of the surviving tokens. -/
theorem strip_collapse_joinSp (ts : List (List Char))
    (h : ∀ w ∈ ts, w ≠ [] ∧ ∀ c ∈ w, pyIsSpace c = false) :
    pyStrip (collapseWs (joinSp ts)) = joinSp ts := by
  rw [collapseWs_joinSp ts h, pyStrip_joinSp ts h]

/-! ## Pipeline invariants -/

/-- Characters surviving the NFKD stage are non-combining characters of some
input decomposition. -/
theorem mem_stage_nfkd {l : List Char} {c : Char} (hc : c ∈ stage_nfkd l) :
    pyCombining c = false ∧ ∃ d ∈ l, c ∈ nfkd d := by
  unfold stage_nfkd at hc
  have h1 := List.mem_filter.mp hc
  refine ⟨by simpa using h1.2, ?_⟩
  obtain ⟨d, hd, hcd⟩ := List.mem_flatMap.mp h1.1
  exact ⟨d, hd, hcd⟩

/-- Characters of the lowercase stage are lowered input characters. -/
theorem mem_stage_lower {l : List Char} {d : Char} (hd : d ∈ stage_lower l) :
    ∃ e ∈ l, d = pyLower e := by
  unfold stage_lower at hd
  obtain ⟨e, he, hde⟩ := List.mem_map.mp hd
  exact ⟨e, he, hde.symm⟩

/-- A non-whitespace character of the pre-filter string is a stable word
character. -/
theorem preFilter_char_facts {s : String} {c : Char} (hc : c ∈ preFilterList s)
    (hns : pyIsSpace c = false) :
    pyIsWord c = true ∧ pyLower c = c ∧ nfkd c = [c] ∧ pyCombining c = false ∧ c ≠ '.' := by
  obtain ⟨d, hd, hcd⟩ := List.mem_map.mp hc
  by_cases hword : (pyIsWord d || pyIsSpace d) = true
  · rw [if_pos hword] at hcd
    subst hcd
    have hw : pyIsWord d = true := by
      have hword' : pyIsWord d = true ∨ pyIsSpace d = true := by simpa using hword
      rcases hword' with h | h
      · exact h
      · rw [h] at hns
        cases hns
    have hd2 : d ∈ stage_nfkd (stage_lower s.toList) := modelSub_mem hd
    obtain ⟨hcomb, e, he, hde⟩ := mem_stage_nfkd hd2
    obtain ⟨e0, he0, hee⟩ := mem_stage_lower he
    subst hee
    obtain ⟨hst1, hst2⟩ := charStable hde hcomb
    exact ⟨hw, hst1, hst2, hcomb, word_ne_dot hw⟩
  · rw [if_neg hword] at hcd
    subst hcd
    exact absurd hns (by decide)

/-- The surviving tokens are nonempty lists of stable word characters. -/
theorem filteredTokens_good {s : String} {w : List Char} (hw : w ∈ filteredTokens s) :
    w ≠ [] ∧ ∀ c ∈ w, pyIsSpace c = false ∧ pyIsWord c = true ∧ pyLower c = c ∧
      nfkd c = [c] ∧ pyCombining c = false ∧ c ≠ '.' := by
  have hw0 : w ∈ (tokensOf (preFilterList s)).filter
      (keepWord ((tokensOf (preFilterList s)).filter isModelToken)) := hw
  have hw' : w ∈ tokensOf (preFilterList s) := (List.mem_filter.mp hw0).1
  obtain ⟨hne, hall⟩ := tokensOf_spec hw'
  refine ⟨hne, fun c hc => ?_⟩
  obtain ⟨hcl, hns⟩ := hall c hc
  obtain ⟨h1, h2, h3, h4, h5⟩ := preFilter_char_facts hcl hns
  exact ⟨hns, h1, h2, h3, h4, h5⟩

/-- On nonempty string input, standard mode returns exactly the space-join of
the surviving tokens. -/
theorem process_std_eq {s : String} (hs : s ≠ "") :
    process_brand_for_search (.str s) "standard" = String.mk (joinSp (filteredTokens s)) := by
  show (if s = "" then "" else _) = _
  rw [if_neg hs]
  rw [if_neg (by decide : ¬ ("standard" = "alphanumeric"))]
  congr 1
  apply strip_collapse_joinSp
  intro w hw
  obtain ⟨hne, hall⟩ := filteredTokens_good hw
  exact ⟨hne, fun c hc => (hall c hc).1⟩

/-! ## Stage identity lemmas -/

/-- The lowercase stage is the identity on lowercase-stable characters. -/
theorem stage_lower_id : ∀ l : List Char, (∀ c ∈ l, pyLower c = c) → stage_lower l = l := by
  intro l
  induction l with
  | nil => intro _; rfl
  | cons c t ih =>
    intro h
    show pyLower c :: t.map pyLower = c :: t
    rw [h c (List.mem_cons_self _ _)]
    exact congrArg (List.cons c) (ih (fun d hd => h d (List.mem_cons_of_mem _ hd)))

/-- The NFKD stage is the identity on stable non-combining characters. -/
theorem stage_nfkd_id : ∀ (l : List Char),
    (∀ c ∈ l, nfkd c = [c] ∧ pyCombining c = false) → stage_nfkd l = l := by
  intro l
  induction l with
  | nil => intro _; rfl
  | cons c t ih =>
    intro h
    have hc := h c (List.mem_cons_self _ _)
    have ih' := ih (fun d hd => h d (List.mem_cons_of_mem _ hd))
    unfold stage_nfkd at ih' ⊢
    rw [List.flatMap_cons, hc.1, List.filter_append, ih']
    simp [hc.2]

/-- The punctuation stage is the identity on word and space characters. -/
theorem stage_punct_id : ∀ l : List Char,
    (∀ c ∈ l, (pyIsWord c || pyIsSpace c) = true) → stage_punct l = l := by
  intro l
  induction l with
  | nil => intro _; rfl
  | cons c t ih =>
    intro h
    show (if pyIsWord c || pyIsSpace c then c else ' ') ::
      t.map (fun c => if pyIsWord c || pyIsSpace c then c else ' ') = c :: t
    rw [if_pos (h c (List.mem_cons_self _ _))]
    exact congrArg (List.cons c) (ih (fun d hd => h d (List.mem_cons_of_mem _ hd)))

/-! ## Stability of the pipeline on its own output -/

/-- Characters of the standard-mode output are stable under every stage. -/
theorem joinSp_char_facts {s : String} {c : Char} (hc : c ∈ joinSp (filteredTokens s)) :
    pyLower c = c ∧ nfkd c = [c] ∧ pyCombining c = false ∧
      (pyIsWord c || pyIsSpace c) = true ∧ c ≠ '.' := by
  rcases mem_joinSp _ c hc with rfl | ⟨w, hw, hcw⟩
  · exact ⟨by decide, by decide, by decide, by decide, by decide⟩
  · obtain ⟨-, hall⟩ := filteredTokens_good hw
    obtain ⟨hns, hword, hlow, hnf, hcomb, hdot⟩ := hall c hcw
    exact ⟨hlow, hnf, hcomb, by simp [hword], hdot⟩

/-- Lines 30–42 are the identity on the standard-mode output. -/
theorem preFilter_out {s : String} :
    preFilterList (String.mk (joinSp (filteredTokens s))) = joinSp (filteredTokens s) := by
  have hchars : ∀ c ∈ joinSp (filteredTokens s), pyLower c = c ∧ nfkd c = [c] ∧
      pyCombining c = false ∧ (pyIsWord c || pyIsSpace c) = true ∧ c ≠ '.' :=
    fun c hc => joinSp_char_facts hc
  show stage_punct (modelSub (stage_nfkd (stage_lower
      (String.mk (joinSp (filteredTokens s))).toList))) = _
  have htl : (String.mk (joinSp (filteredTokens s))).toList = joinSp (filteredTokens s) := rfl
  rw [htl, stage_lower_id _ (fun c hc => (hchars c hc).1),
    stage_nfkd_id _ (fun c hc => ⟨(hchars c hc).2.1, (hchars c hc).2.2.1⟩),
    modelSub_id_of_no_dot (fun c hc => (hchars c hc).2.2.2.2),
    stage_punct_id _ (fun c hc => (hchars c hc).2.2.2.1)]

/-- A token that survived the filter also passes the filter recomputed over
the surviving tokens: the keep condition is a disjunction, and detected model
numbers remain detected. -/
theorem keepWord_stable {s : String} {w : List Char} (hw : w ∈ filteredTokens s) :
    keepWord ((filteredTokens s).filter isModelToken) w = true := by
  have hw0 : w ∈ (tokensOf (preFilterList s)).filter
      (keepWord ((tokensOf (preFilterList s)).filter isModelToken)) := hw
  obtain ⟨hmem, hkeep⟩ := List.mem_filter.mp hw0
  have hwl : w.map pyLower = w :=
    stage_lower_id w (fun c hc => ((filteredTokens_good hw).2 c hc).2.2.1)
  simp only [keepWord] at hkeep ⊢
  rw [hwl] at hkeep ⊢
  rcases Bool.or_eq_true_iff.mp hkeep with hCP | hM
  · exact Bool.or_eq_true_iff.mpr (Or.inl hCP)
  · have hMmem : w ∈ (tokensOf (preFilterList s)).filter isModelToken := by
      simpa using hM
    have hModel : isModelToken w = true := (List.mem_filter.mp hMmem).2
    have hM2 : w ∈ (filteredTokens s).filter isModelToken :=
      List.mem_filter.mpr ⟨hw, hModel⟩
    refine Bool.or_eq_true_iff.mpr (Or.inr ?_)
    simpa using hM2

/-- Re-running the whole token filter on the standard-mode output keeps every
token. -/
theorem filteredTokens_out {s : String} :
    filteredTokens (String.mk (joinSp (filteredTokens s))) = filteredTokens s := by
  have hgood : ∀ w ∈ filteredTokens s, w ≠ [] ∧ ∀ c ∈ w, pyIsSpace c = false :=
    fun w hw => ⟨(filteredTokens_good hw).1,
      fun c hc => ((filteredTokens_good hw).2 c hc).1⟩
  have htok : tokensOf (preFilterList (String.mk (joinSp (filteredTokens s))))
      = filteredTokens s := by
    rw [preFilter_out]
    exact tokensOf_joinSp _ hgood
  show (tokensOf (preFilterList (String.mk (joinSp (filteredTokens s))))).filter
      (keepWord ((tokensOf (preFilterList (String.mk (joinSp
        (filteredTokens s))))).filter isModelToken)) = filteredTokens s
  rw [htok]
  exact List.filter_eq_self.mpr (fun w hw => keepWord_stable hw)

/-! ## Survival of whitespace-delimited preserved words -/

/-- Lowercase ASCII letters are word characters, are not whitespace, and are
not dots. -/
theorem lower_char_facts {c : Char} (h : Char.isLower c = true) :
    pyIsSpace c = false ∧ pyIsWord c = true ∧ c ≠ '.' := by
  refine ⟨?_, ?_, ?_⟩
  · cases hs : pyIsSpace c
    · rfl
    · rw [(space_char_facts hs).2.2.2.2.1] at h
      cases h
  · simp [pyIsWord, Char.isAlphanum, Char.isAlpha, h]
  · rintro rfl
    revert h
    decide

/-- The punctuation stage distributes over append. -/
theorem stage_punct_append (a b : List Char) :
    stage_punct (a ++ b) = stage_punct a ++ stage_punct b :=
  List.map_append _ _ _

/-- The punctuation stage keeps a whitespace character. -/
theorem stage_punct_cons_space {c : Char} (hc : pyIsSpace c = true) (l : List Char) :
    stage_punct (c :: l) = c :: stage_punct l := by
  show (if pyIsWord c || pyIsSpace c then c else ' ') :: stage_punct l = _
  rw [if_pos (by simp [hc])]

/-- The NFKD stage distributes over append. -/
theorem stage_nfkd_append (a b : List Char) :
    stage_nfkd (a ++ b) = stage_nfkd a ++ stage_nfkd b := by
  simp [stage_nfkd, List.flatMap_append, List.filter_append]

/-- The lowercase stage distributes over append. -/
theorem stage_lower_append (a b : List Char) :
    stage_lower (a ++ b) = stage_lower a ++ stage_lower b :=
  List.map_append _ _ _

/-- Every preserved term is a nonempty string of stable lowercase ASCII
letters. -/
theorem preserved_chars_ok :
    ∀ t ∈ preserved_terms, t.toList ≠ [] ∧ ∀ c ∈ t.toList,
      Char.isLower c = true ∧ pyLower c = c ∧ nfkd c = [c] ∧ pyCombining c = false := by
  decide

/-- A whitespace-delimited all-lowercase word entering the abbreviation
scanner surfaces as a token after scanning and punctuation replacement. -/
theorem word_token_surfaces {w pre post : List Char} (hwne : w ≠ [])
    (hw : ∀ c ∈ w, Char.isLower c = true)
    (hpre : pre = [] ∨ ∃ p c, pre = p ++ [c] ∧ pyIsSpace c = true)
    (hpost : post = [] ∨ ∃ c p, post = c :: p ∧ pyIsSpace c = true) :
    w ∈ tokensOf (stage_punct (modelSub (pre ++ (w ++ post)))) := by
  have hnd : ∀ c ∈ w, c ≠ '.' := fun c hc => (lower_char_facts (hw c hc)).2.2
  have hns : ∀ c ∈ w, pyIsSpace c = false := fun c hc => (lower_char_facts (hw c hc)).1
  have hwd : ∀ c ∈ w, (pyIsWord c || pyIsSpace c) = true :=
    fun c hc => by simp [(lower_char_facts (hw c hc)).2.1]
  have hSw : stage_punct w = w := stage_punct_id w hwd
  have hself : w ∈ tokensOf w := by
    rw [tokensOf_single hwne hns]
    exact List.mem_cons_self _ _
  rcases hpre with rfl | ⟨p, c, rfl, hc⟩
  · rcases hpost with rfl | ⟨c2, p2, rfl, hc2⟩
    · simp only [List.nil_append, List.append_nil]
      rw [modelSub_id_of_no_dot hnd, hSw]
      exact hself
    · simp only [List.nil_append]
      rw [modelSub_split hc2 w p2, modelSub_id_of_no_dot hnd]
      rw [stage_punct_append, stage_punct_cons_space hc2, hSw]
      rw [tokensOf_append_space hc2]
      exact List.mem_append_left _ hself
  · rcases hpost with rfl | ⟨c2, p2, rfl, hc2⟩
    · simp only [List.append_nil]
      have hshape : (p ++ [c]) ++ w = p ++ c :: w := by simp
      rw [hshape, modelSub_split hc p w, modelSub_id_of_no_dot hnd]
      rw [stage_punct_append, stage_punct_cons_space hc, hSw]
      rw [tokensOf_append_space hc]
      exact List.mem_append_right _ hself
    · have hshape : (p ++ [c]) ++ (w ++ c2 :: p2) = p ++ c :: (w ++ c2 :: p2) := by simp
      rw [hshape, modelSub_split hc p _, modelSub_split hc2 w p2, modelSub_id_of_no_dot hnd]
      rw [stage_punct_append, stage_punct_cons_space hc, stage_punct_append,
        stage_punct_cons_space hc2, hSw]
      rw [tokensOf_append_space hc, tokensOf_append_space hc2]
      exact List.mem_append_right _ (List.mem_append_left _ hself)

/-! ## Mode characterizations -/

/-- On nonempty input, alphanumeric mode returns the join of the surviving
tokens with every character outside `[a-z0-9]` removed. -/
theorem process_alnum_eq0 {s : String} (hs : s ≠ "") :
    process_brand_for_search (PyValue.str s) "alphanumeric" =
      String.mk ((joinSp (filteredTokens s)).filter (fun c => c.isLower || c.isDigit)) := by
  show (if s = "" then "" else _) = _
  rw [if_neg hs, if_pos rfl]
  congr 1
  rw [strip_collapse_joinSp _ (fun w hw => ⟨(filteredTokens_good hw).1,
    fun c hc => ((filteredTokens_good hw).2 c hc).1⟩)]

/-! ## The claims -/

/-- C1: for every mode, invalid input — Python `None`, the empty string, or a
non-string value — makes `process_brand_for_search` return the empty string
immediately, bypassing the pipeline (line 26 of the source).  The embedding
is a total function into `String`, so no input and no mode can raise. -/
theorem claim_C1 (mode : String) :
    process_brand_for_search PyValue.none mode = "" ∧
    process_brand_for_search (PyValue.str "") mode = "" ∧
    process_brand_for_search PyValue.other mode = "" := by
  exact ⟨rfl, rfl, rfl⟩

/-- C2: standard-mode normalization is idempotent: running
`process_brand_for_search` in standard mode on its own standard-mode output
returns that output unchanged, for every string. -/
theorem claim_C2 (s : String) :
    process_brand_for_search
        (PyValue.str (process_brand_for_search (PyValue.str s) "standard")) "standard"
      = process_brand_for_search (PyValue.str s) "standard" := by
  by_cases hs : s = ""
  · subst hs
    rfl
  · rw [process_std_eq hs]
    by_cases hts : filteredTokens s = []
    · rw [hts]
      rfl
    · have hne : String.mk (joinSp (filteredTokens s)) ≠ "" := by
        cases hts' : filteredTokens s with
        | nil => exact absurd hts' hts
        | cons w ws =>
          have hwmem : w ∈ filteredTokens s := by
            rw [hts']
            exact List.mem_cons_self _ _
          have hwne : w ≠ [] := (filteredTokens_good hwmem).1
          intro hcontra
          have hjoin : joinSp (w :: ws) = [] := by
            simpa using congrArg String.toList hcontra
          exact joinSp_ne_nil hwne hjoin
      rw [process_std_eq hne, filteredTokens_out]

/-- C3: "Rolex Submariner GMT" normalizes to "rolex submariner" (standard)
and "rolexsubmariner" (alphanumeric): "gmt" is a stopword, not preserved,
and not a model-number token, so it is removed. -/
theorem claim_C3 :
    process_brand_for_search (PyValue.str "Rolex Submariner GMT") "standard"
        = "rolex submariner" ∧
    process_brand_for_search (PyValue.str "Rolex Submariner GMT") "alphanumeric"
        = "rolexsubmariner" := by
  constructor
  · decide
  · decide

/-- C4: for every string input, the alphanumeric-mode output contains only
characters in `[a-z0-9]` and in particular no space: it is a single unbroken
token. -/
theorem claim_C4 (s : String) :
    (process_brand_for_search (PyValue.str s) "alphanumeric").toList.all
        (fun c => c.isLower || c.isDigit) = true ∧
    ' ' ∉ (process_brand_for_search (PyValue.str s) "alphanumeric").toList := by
  by_cases hs : s = ""
  · subst hs
    exact ⟨rfl, by decide⟩
  · rw [process_alnum_eq0 hs]
    constructor
    · exact List.all_eq_true.mpr (fun c hc => (List.mem_filter.mp hc).2)
    · intro hmem
      exact absurd (List.mem_filter.mp hmem).2 (by decide)

/-- C5: every preserved term occurring in the input as a standalone
whitespace-delimited word, in any letter casing, survives as a token of the
standard-mode output. -/
theorem claim_C5 (term : String) (hterm : term ∈ preserved_terms) (s : String)
    (pre w post : List Char) (hs : s.toList = pre ++ (w ++ post))
    (hwl : w.map pyLower = term.toList)
    (hpre : pre = [] ∨ ∃ p c, pre = p ++ [c] ∧ pyIsSpace c = true)
    (hpost : post = [] ∨ ∃ c p, post = c :: p ∧ pyIsSpace c = true) :
    term.toList ∈ tokensOf (process_brand_for_search (PyValue.str s) "standard").toList := by
  obtain ⟨htne, htc⟩ := preserved_chars_ok term hterm
  have hwne : w ≠ [] := by
    intro h
    rw [h] at hwl
    exact htne (by simpa using hwl.symm)
  have hsne : s ≠ "" := by
    intro h
    subst h
    have h0 : ([] : List Char) = pre ++ (w ++ post) := hs
    have hlen := congrArg List.length h0
    simp only [List.length_nil, List.length_append] at hlen
    have hw0 : w.length = 0 := by omega
    exact hwne (List.eq_nil_of_length_eq_zero hw0)
  rw [process_std_eq hsne]
  have hgood : ∀ w' ∈ filteredTokens s, w' ≠ [] ∧ ∀ c ∈ w', pyIsSpace c = false :=
    fun w' hw' => ⟨(filteredTokens_good hw').1,
      fun c hc => ((filteredTokens_good hw').2 c hc).1⟩
  show term.toList ∈ tokensOf (joinSp (filteredTokens s))
  rw [tokensOf_joinSp _ hgood]
  have htok : term.toList ∈ tokensOf (preFilterList s) := by
    show term.toList ∈ tokensOf (stage_punct (modelSub (stage_nfkd (stage_lower s.toList))))
    have hmid : stage_nfkd (stage_lower w) = term.toList := by
      show stage_nfkd (w.map pyLower) = _
      rw [hwl]
      exact stage_nfkd_id _ (fun c hc => ⟨(htc c hc).2.2.1, (htc c hc).2.2.2⟩)
    rw [hs, stage_lower_append, stage_lower_append, stage_nfkd_append, stage_nfkd_append,
      hmid]
    have hpre' : stage_nfkd (stage_lower pre) = [] ∨
        ∃ p c, stage_nfkd (stage_lower pre) = p ++ [c] ∧ pyIsSpace c = true := by
      rcases hpre with rfl | ⟨p, c, rfl, hc⟩
      · exact Or.inl rfl
      · right
        obtain ⟨hl, hn, hcmb, -⟩ := space_char_facts hc
        refine ⟨stage_nfkd (stage_lower p), c, ?_, hc⟩
        have hone : stage_nfkd (stage_lower [c]) = [c] := by
          show stage_nfkd ([c].map pyLower) = [c]
          rw [show [c].map pyLower = [c] from by simp [hl]]
          exact stage_nfkd_id _ (fun d hd => by
            have hd' : d = c := by simpa using hd
            subst hd'
            exact ⟨hn, hcmb⟩)
        rw [stage_lower_append, stage_nfkd_append, hone]
    have hpost' : stage_nfkd (stage_lower post) = [] ∨
        ∃ c p, stage_nfkd (stage_lower post) = c :: p ∧ pyIsSpace c = true := by
      rcases hpost with rfl | ⟨c, p, rfl, hc⟩
      · exact Or.inl rfl
      · right
        obtain ⟨hl, hn, hcmb, -⟩ := space_char_facts hc
        refine ⟨c, stage_nfkd (stage_lower p), ?_, hc⟩
        have hone : stage_nfkd (stage_lower [c]) = [c] := by
          show stage_nfkd ([c].map pyLower) = [c]
          rw [show [c].map pyLower = [c] from by simp [hl]]
          exact stage_nfkd_id _ (fun d hd => by
            have hd' : d = c := by simpa using hd
            subst hd'
            exact ⟨hn, hcmb⟩)
        have hcons : (c :: p) = [c] ++ p := rfl
        rw [hcons, stage_lower_append, stage_nfkd_append, hone]
        rfl
    exact word_token_surfaces htne (fun c hc => (htc c hc).1) hpre' hpost'
  show term.toList ∈ (tokensOf (preFilterList s)).filter
      (keepWord ((tokensOf (preFilterList s)).filter isModelToken))
  refine List.mem_filter.mpr ⟨htok, ?_⟩
  simp only [keepWord]
  have hlt : (term.toList).map pyLower = term.toList :=
    stage_lower_id _ (fun c hc => (htc c hc).2.1)
  rw [hlt]
  refine Bool.or_eq_true_iff.mpr (Or.inl (Bool.or_eq_true_iff.mpr (Or.inr ?_)))
  have hmk : String.mk term.toList = term := rfl
  rw [hmk]
  simpa using hterm

/-- Witness for C5 at a concrete input: "rolex" is preserved and occurs as a
standalone word of "Rolex x", so it appears among the standard-mode output
tokens. -/
theorem claim_C5_witness :
    "rolex".toList ∈
      tokensOf (process_brand_for_search (PyValue.str "Rolex x") "standard").toList :=
  claim_C5 "rolex" (by decide) "Rolex x" [] ("Rolex".toList) (' ' :: ['x'])
    (by decide) (by decide) (Or.inl rfl) (Or.inr ⟨' ', ['x'], rfl, by decide⟩)

/-- C6: during token filtering the keep condition is a true disjunction:
a token whose lowering is among the detected model numbers is retained,
regardless of whether it is a stopword. -/
theorem claim_C6 (s : String) (w : List Char)
    (hmem : w ∈ tokensOf (preFilterList s))
    (hmodel : w.map pyLower ∈ (tokensOf (preFilterList s)).filter isModelToken) :
    w ∈ filteredTokens s ∧
      w ∈ tokensOf (process_brand_for_search (PyValue.str s) "standard").toList := by
  have hwf : w ∈ filteredTokens s := by
    show w ∈ (tokensOf (preFilterList s)).filter
        (keepWord ((tokensOf (preFilterList s)).filter isModelToken))
    refine List.mem_filter.mpr ⟨hmem, ?_⟩
    simp only [keepWord]
    refine Bool.or_eq_true_iff.mpr (Or.inr ?_)
    simpa using hmodel
  refine ⟨hwf, ?_⟩
  have hsne : s ≠ "" := by
    intro h
    subst h
    have hnilt : tokensOf (preFilterList "") = [] := rfl
    rw [hnilt] at hmem
    cases hmem
  rw [process_std_eq hsne]
  show w ∈ tokensOf (joinSp (filteredTokens s))
  rw [tokensOf_joinSp _ (fun w' hw' => ⟨(filteredTokens_good hw').1,
    fun c hc => ((filteredTokens_good hw').2 c hc).1⟩)]
  exact hwf

/-- Witness for C6 at a concrete input: the token "123" of "rolex 123" is a
detected model number and is retained. -/
theorem claim_C6_witness :
    ['1', '2', '3'] ∈ filteredTokens "rolex 123" ∧
      ['1', '2', '3'] ∈
        tokensOf (process_brand_for_search (PyValue.str "rolex 123") "standard").toList :=
  claim_C6 "rolex 123" ['1', '2', '3'] (by decide) (by decide)

/-- C7: for every string, the alphanumeric-mode output equals the
standard-mode output with every character outside `[a-z0-9]` removed; the
mode only controls this final stripping step. -/
theorem claim_C7 (s : String) :
    process_brand_for_search (PyValue.str s) "alphanumeric" =
      String.mk ((process_brand_for_search (PyValue.str s) "standard").toList.filter
        (fun c => c.isLower || c.isDigit)) := by
  by_cases hs : s = ""
  · subst hs
    rfl
  · rw [process_alnum_eq0 hs, process_std_eq hs]
    rfl

/-- C8: "F.P. Journe Élégante" normalizes to "fp journe elegante" (standard)
and "fpjourneelegante" (alphanumeric): the letter-dot-letter-dot
abbreviation collapses to "fp" and the accents are stripped. -/
theorem claim_C8 :
    process_brand_for_search (PyValue.str "F.P. Journe Élégante") "standard"
        = "fp journe elegante" ∧
    process_brand_for_search (PyValue.str "F.P. Journe Élégante") "alphanumeric"
        = "fpjourneelegante" := by
  constructor
  · decide
  · decide

/-- C9: every mode other than "alphanumeric" (including unknown values)
behaves exactly like "standard": the mode argument only decides whether the
final stripping step runs. -/
theorem claim_C9 (s : String) (m : String) (hm : m ≠ "alphanumeric") :
    process_brand_for_search (PyValue.str s) m =
      process_brand_for_search (PyValue.str s) "standard" := by
  by_cases hs : s = ""
  · subst hs
    rfl
  · rw [process_std_eq hs]
    unfold process_brand_for_search
    dsimp only
    rw [if_neg hs, if_neg hm]
    congr 1
    rw [strip_collapse_joinSp _ (fun w hw => ⟨(filteredTokens_good hw).1,
      fun c hc => ((filteredTokens_good hw).2 c hc).1⟩)]

/-- Witness for C9 at a concrete input and the unknown mode "xyz". -/
theorem claim_C9_witness :
    process_brand_for_search (PyValue.str "Rolex Submariner GMT") "xyz" =
      process_brand_for_search (PyValue.str "Rolex Submariner GMT") "standard" :=
  claim_C9 "Rolex Submariner GMT" "xyz" (by decide)

/-- C10: the standard-mode output is not confined to `[a-z0-9 ]`: an
underscore survives (it is a regex word character), and so does the
non-ASCII word character 'ß'. -/
theorem claim_C10 :
    (∃ s : String, ∃ c ∈ (process_brand_for_search (PyValue.str s) "standard").toList,
      (c.isLower || c.isDigit) = false ∧ c ≠ ' ') ∧
    '_' ∈ (process_brand_for_search (PyValue.str "a_b") "standard").toList ∧
    'ß' ∈ (process_brand_for_search (PyValue.str "ß") "standard").toList := by
  refine ⟨⟨"a_b", '_', by decide, by decide, by decide⟩, by decide, by decide⟩

end BrandProcessing
